import Mathlib

/-
Verification development for the stock/currency update script
(update-multi-stock.py). The script maintains two date-keyed tables
(share prices and currency rates), fills gaps from a provider, converts
USD prices to EUR with an as-of rate lookup, merges with last-write-wins
dedup, and projects a EUR series into all tracked currencies.

Shallow embedding conventions:
- Calendar dates are integers (days); a date that failed to parse
  (pandas NaT) is `none : Option Int`.
- Numeric values are exact rationals; a missing cell (NaN) is
  `none : Option Rat`.
- `round(x, n)` in Python rounds half to even; `roundHalfEven` mirrors
  that on rationals.
-/

/-- Round a rational to the nearest integer, ties to even
(the semantics of Python round and numpy/pandas round). -/
def roundHalfEven (q : ℚ) : ℤ :=
  let n := Int.floor q
  let frac := q - n
  if frac < 1/2 then n
  else if 1/2 < frac then n + 1
  else if n % 2 = 0 then n else n + 1

/-- Round to 2 decimal places: round(x, 2) used for all prices. -/
def round2 (q : ℚ) : ℚ := (roundHalfEven (q * 100) : ℚ) / 100

/-- Round to 4 decimal places: round(x, 4) used for currency rates. -/
def round4 (q : ℚ) : ℚ := (roundHalfEven (q * 10000) : ℚ) / 10000

/-- One row of the Currency sheet as seen by get_usd_to_eur_rate:
the parsed date (none when pd.to_datetime coerced it to NaT) and the
USD column value (none when the column is missing or the cell is NaN). -/
structure CRow where
  date : Option ℤ
  usd : Option ℚ
deriving DecidableEq

/-- Helper of the date filter of get_usd_to_eur_rate: the (date, USD)
pair a row contributes when its date parsed and is at or before the
target date, none otherwise. -/
def availEntry (t : ℤ) (r : CRow) : Option (ℤ × Option ℚ) :=
  match r.date with
  | some d => if d ≤ t then some (d, r.usd) else none
  | none => none

/-- The rows of the currency table whose date parsed and is at or
before the target date, as (date, USD cell) pairs. Mirrors
the filtering to dates up to and including the target date. -/
def availableRates (tbl : List CRow) (t : ℤ) : List (ℤ × Option ℚ) :=
  tbl.filterMap (availEntry t)

/-- First entry holding the maximum date, mirroring
DataFrame.idxmax on the Date column followed by .loc. -/
def maxDateEntry {α : Type} : List (ℤ × α) → Option (ℤ × α)
  | [] => none
  | e :: es =>
    match maxDateEntry es with
    | none => some e
    | some m => if e.1 < m.1 then some m else some e

/-- get_usd_to_eur_rate (lines 73-99): filter the currency table to
dates at or before the target, take the most recent row, and return
1 / (its USD value); None when no such row exists, when the target
date did not parse, or when the USD cell of the selected row is NaN. -/
def get_usd_to_eur_rate (tbl : List CRow) (target : Option ℤ) : Option ℚ :=
  match target with
  | none => none
  | some t =>
    match maxDateEntry (availableRates tbl t) with
    | none => none
    | some e =>
      match e.2 with
      | some u => some (1 / u)
      | none => none

/-- convert_usd_to_eur (lines 101-109): pass the price through when
the rate is None or the price is NaN, otherwise round(price * rate, 2). -/
def convert_usd_to_eur (usd_price : Option ℚ) (exchange_rate : Option ℚ) : Option ℚ :=
  match exchange_rate, usd_price with
  | none, _ => usd_price
  | some _, none => usd_price
  | some r, some p => some (round2 (p * r))

/-- pd.concat followed by drop_duplicates on the Date column with
keep="last" (main, lines 1083-1084 and 1094-1095): a row survives
exactly when no later row carries the same key, and surviving rows
keep their original order. -/
def dedupKeepLast {κ α : Type} [DecidableEq κ] : List (κ × α) → List (κ × α)
  | [] => []
  | r :: rs =>
    if rs.any (fun e => e.1 = r.1) then dedupKeepLast rs
    else r :: dedupKeepLast rs

/-- Outcome of resolving one gap date in fill_missing_stock_data. -/
inductive GapFill where
  | exact : ℚ → GapFill
  | fallback : ℤ → ℚ → GapFill
  | skipped : GapFill
deriving DecidableEq

/-- Exact-date lookup in the provider result, mirroring
target_date in stock_data.index followed by .loc[target_date]. -/
def lookupClose (provider : List (ℤ × ℚ)) (t : ℤ) : Option (ℤ × ℚ) :=
  provider.find? (fun e => e.1 = t)

/-- The per-gap-date resolution of fill_missing_stock_data
(lines 553-582): exact date if present, else the value at the most
recent provider date at or before the target, else skipped. Prices
are rounded to 2 decimals when filled. -/
def resolveGap (provider : List (ℤ × ℚ)) (target : ℤ) : GapFill :=
  match lookupClose provider target with
  | some e => .exact (round2 e.2)
  | none =>
    match maxDateEntry (provider.filter (fun e => e.1 ≤ target)) with
    | none => .skipped
    | some m => .fallback m.1 (round2 m.2)

/-- One row of the Shares sheet restricted to a single instrument:
the parsed date (none for NaT) and the instrument cell (none for NaN). -/
structure SRow where
  date : Option ℤ
  value : Option ℚ
deriving DecidableEq

/-- Maximum of a list of integers, none on the empty list. -/
def listMax : List ℤ → Option ℤ
  | [] => none
  | x :: xs =>
    match listMax xs with
    | none => some x
    | some m => some (max x m)

/-- The most recent parsed date of the series,
mirroring the .max() call on the parsed Date column. -/
def lastDate (rows : List SRow) : Option ℤ :=
  listMax (rows.filterMap SRow.date)

/-- Helper of the gap scan: a row is a candidate when its parsed date
lies at or after the window start and its instrument cell is NaN. -/
def gapEntry (windowStart : ℤ) (r : SRow) : Option ℤ :=
  match r.date, r.value with
  | some d, none => if windowStart ≤ d then some d else none
  | _, _ => none

/-- The gap candidates of fill_missing_stock_data (lines 547-556):
the dates of the existing rows whose parsed date lies at or after
last_date - lookback_days and whose instrument cell is NaN. A
calendar date with no row in the series yields no candidate. -/
def gapCandidates (rows : List SRow) (lookback : ℤ) : List ℤ :=
  match lastDate rows with
  | none => []
  | some last => rows.filterMap (gapEntry (last - lookback))

/-- Per-currency resolution of fill_missing_currency_data
(lines 699-708): the cached forex data is consulted by exact date
match only; the rate is rounded to 4 decimals. -/
def resolveCurrency (data : List (ℤ × ℚ)) (d : ℤ) : Option ℚ :=
  (lookupClose data d).map (fun e => round4 e.2)

/-- The new currency row built for one missing date (lines 694-708):
every cached currency that has the exact date contributes its rounded
rate; the others contribute nothing. -/
def buildCurrencyRow (cache : List (String × List (ℤ × ℚ))) (d : ℤ) :
    List (String × ℚ) :=
  cache.filterMap (fun c => (resolveCurrency c.2 d).map (fun v => (c.1, v)))

/-- A data row of the currency table produced by gap filling. -/
structure CurRow where
  date : ℤ
  rates : List (String × ℚ)
deriving DecidableEq

/-- The filled/skipped counters of the gap-fill engines. -/
structure FillStats where
  filled : ℕ
  skipped : ℕ
deriving DecidableEq

/-- Processing of one missing date in fill_missing_currency_data
(lines 710-718): the row is appended and the filled counter bumped
only when at least one currency resolved; otherwise the table is
unchanged and the skipped counter is bumped. -/
def fillOneDate (cache : List (String × List (ℤ × ℚ))) (d : ℤ)
    (tbl : List CurRow) (stats : FillStats) : List CurRow × FillStats :=
  let row := buildCurrencyRow cache d
  if 0 < row.length then
    (tbl ++ [⟨d, row⟩], ⟨stats.filled + 1, stats.skipped⟩)
  else
    (tbl, ⟨stats.filled, stats.skipped + 1⟩)

/-- Left-join lookup of a rate for one date, mirroring the merge on
Date with how=left followed by pd.to_numeric: a date with no row or
with a NaN cell gives none. -/
def lookupRate (rates : List (ℤ × Option ℚ)) (d : ℤ) : Option ℚ :=
  ((rates.find? (fun e => e.1 = d)).map Prod.snd).getD none

/-- One projected cell of generate_company_specific_files
(lines 799-814): populated with round(eur * rate, 2) exactly when
the EUR base price is present, the rate is present and the rate is
strictly positive; otherwise the cell stays None. -/
def projectCell (eur : Option ℚ) (rate : Option ℚ) : Option ℚ :=
  match eur, rate with
  | some e, some r => if 0 < r then some (round2 (e * r)) else none
  | _, _ => none

/-- The projected series for one instrument and one target currency:
each EUR row is mapped to its projected cell through the date join. -/
def projectSeries (eurSeries : List (ℤ × Option ℚ))
    (rates : List (ℤ × Option ℚ)) : List (ℤ × Option ℚ) :=
  eurSeries.map (fun p => (p.1, projectCell p.2 (lookupRate rates p.1)))

/-- Conversion statistics of main (lines 1109-1129). -/
structure ConvStats where
  converted : ℕ
  skipped_no_rate : ℕ
  skipped_missing_price : ℕ
deriving DecidableEq

/-- Processing of one USD stock entry of a new record in main
(lines 1112-1129): with a present price and a present rate the entry
is converted and counted; with a present price and no rate the entry
is left unchanged and counted as a no-rate skip; with a NaN price
the entry is counted as a missing-price skip. -/
def processUsdEntry (price : Option ℚ) (rate : Option ℚ) (s : ConvStats) :
    Option ℚ × ConvStats :=
  match price with
  | some p =>
    match rate with
    | some _ =>
      (convert_usd_to_eur (some p) rate,
       { s with converted := s.converted + 1 })
    | none => (some p, { s with skipped_no_rate := s.skipped_no_rate + 1 })
  | none => (none, { s with skipped_missing_price := s.skipped_missing_price + 1 })

/-- Distinctness of the parseable dates of the currency table:
the per-DateKey uniqueness invariant of the data model. -/
def RDistinct (tbl : List CRow) : Prop :=
  tbl.Pairwise (fun r1 r2 => r1.date = r2.date → r1.date = none)

theorem maxDateEntry_isSome {α : Type} (e : ℤ × α) (es : List (ℤ × α)) :
    ∃ m, maxDateEntry (e :: es) = some m := by
  simp only [maxDateEntry]
  cases maxDateEntry es with
  | none => exact ⟨e, rfl⟩
  | some m => by_cases h : e.1 < m.1 <;> simp [h]

theorem maxDateEntry_mem {α : Type} : ∀ {l : List (ℤ × α)} {m : ℤ × α},
    maxDateEntry l = some m → m ∈ l := by
  intro l
  induction l with
  | nil => intro m h; simp [maxDateEntry] at h
  | cons e es ih =>
    intro m h
    simp only [maxDateEntry] at h
    cases he : maxDateEntry es with
    | none =>
      rw [he] at h
      simp only [Option.some.injEq] at h
      simp [h]
    | some m2 =>
      rw [he] at h
      by_cases hlt : e.1 < m2.1
      · simp only [hlt, if_true, Option.some.injEq] at h
        subst h
        exact List.mem_cons_of_mem _ (ih he)
      · simp only [hlt, if_false, Option.some.injEq] at h
        subst h
        exact List.mem_cons_self _ _

theorem maxDateEntry_le {α : Type} : ∀ {l : List (ℤ × α)} {m : ℤ × α},
    maxDateEntry l = some m → ∀ x ∈ l, x.1 ≤ m.1 := by
  intro l
  induction l with
  | nil => intro m h; simp [maxDateEntry] at h
  | cons e es ih =>
    intro m h x hx
    simp only [maxDateEntry] at h
    cases he : maxDateEntry es with
    | none =>
      rw [he] at h
      simp only [Option.some.injEq] at h
      subst h
      have : es = [] := by
        cases es with
        | nil => rfl
        | cons f fs =>
          obtain ⟨m2, hm2⟩ := maxDateEntry_isSome f fs
          rw [hm2] at he
          cases he
      subst this
      simp at hx
      simp [hx]
    | some m2 =>
      rw [he] at h
      rcases List.mem_cons.mp hx with hxe | hxes
      · subst hxe
        by_cases hlt : x.1 < m2.1
        · simp only [hlt, if_true, Option.some.injEq] at h
          subst h
          exact le_of_lt hlt
        · simp only [hlt, if_false, Option.some.injEq] at h
          subst h
          exact le_refl _
      · have hle2 := ih he x hxes
        by_cases hlt : e.1 < m2.1
        · simp only [hlt, if_true, Option.some.injEq] at h
          subst h
          exact hle2
        · simp only [hlt, if_false, Option.some.injEq] at h
          subst h
          exact le_trans hle2 (not_lt.mp hlt)

theorem pairwise_fst_ne_inj {α : Type} : ∀ {l : List (ℤ × α)},
    l.Pairwise (fun a b => a.1 ≠ b.1) →
    ∀ {a b : ℤ × α}, a ∈ l → b ∈ l → a.1 = b.1 → a = b := by
  intro l
  induction l with
  | nil => intro _ a b ha; cases ha
  | cons p ps ih =>
    intro hp a b ha hb hab
    rw [List.pairwise_cons] at hp
    rcases List.mem_cons.mp ha with rfl | ha2
    · rcases List.mem_cons.mp hb with rfl | hb2
      · rfl
      · exact absurd hab (hp.1 b hb2)
    · rcases List.mem_cons.mp hb with rfl | hb2
      · exact absurd hab.symm (hp.1 a ha2)
      · exact ih hp.2 ha2 hb2 hab

theorem maxDateEntry_spec {α : Type} {l : List (ℤ × α)} {m0 : ℤ × α}
    (hp : l.Pairwise (fun a b => a.1 ≠ b.1)) (hmem : m0 ∈ l)
    (hmax : ∀ x ∈ l, x.1 ≤ m0.1) : maxDateEntry l = some m0 := by
  cases l with
  | nil => cases hmem
  | cons e es =>
    obtain ⟨m, hm⟩ := maxDateEntry_isSome e es
    have hmm := maxDateEntry_mem hm
    have h1 := hmax m hmm
    have h2 := maxDateEntry_le hm m0 hmem
    have : m = m0 := pairwise_fst_ne_inj hp hmm hmem (le_antisymm h1 h2)
    rw [hm, this]

theorem find?_fst_eq_of_mem {α : Type} : ∀ {l : List (ℤ × α)} {k : ℤ} {v : α},
    l.Pairwise (fun a b => a.1 ≠ b.1) → (k, v) ∈ l →
    l.find? (fun e => e.1 = k) = some (k, v) := by
  intro l
  induction l with
  | nil => intro k v _ h; cases h
  | cons p ps ih =>
    intro k v hp hmem
    rw [List.pairwise_cons] at hp
    rcases List.mem_cons.mp hmem with rfl | h2
    · simp [List.find?]
    · have hne : p.1 ≠ k := hp.1 (k, v) h2
      rw [List.find?]
      simp only [hne, decide_eq_true_eq, if_neg]
      · exact ih hp.2 h2


theorem availEntry_eq_some {t : ℤ} {r : CRow} {d : ℤ} {u : Option ℚ} :
    availEntry t r = some (d, u) ↔ r.date = some d ∧ d ≤ t ∧ r.usd = u := by
  cases hrd : r.date with
  | none => simp [availEntry, hrd]
  | some d2 =>
    by_cases hdt : d2 ≤ t
    · simp only [availEntry, hrd, if_pos hdt, Option.some.injEq, Prod.mk.injEq]
      constructor
      · rintro ⟨rfl, rfl⟩
        exact ⟨rfl, hdt, rfl⟩
      · rintro ⟨hdd, _, hu⟩
        exact ⟨hdd, hu⟩
    · simp only [availEntry, hrd, if_neg hdt, Option.some.injEq]
      constructor
      · intro h; cases h
      · rintro ⟨hdd, hle, _⟩
        subst hdd
        exact absurd hle hdt

theorem availableRates_mem {tbl : List CRow} {t d : ℤ} {u : Option ℚ} :
    (d, u) ∈ availableRates tbl t ↔
      (∃ r ∈ tbl, r.date = some d ∧ r.usd = u) ∧ d ≤ t := by
  unfold availableRates
  rw [List.mem_filterMap]
  constructor
  · rintro ⟨r, hr, hf⟩
    obtain ⟨h1, h2, h3⟩ := availEntry_eq_some.mp hf
    exact ⟨⟨r, hr, h1, h3⟩, h2⟩
  · rintro ⟨⟨r, hr, hrd, hru⟩, hdt⟩
    exact ⟨r, hr, availEntry_eq_some.mpr ⟨hrd, hdt, hru⟩⟩

theorem availableRates_pairwise {tbl : List CRow} {t : ℤ} (h : RDistinct tbl) :
    (availableRates tbl t).Pairwise (fun a b => a.1 ≠ b.1) := by
  unfold RDistinct at h
  unfold availableRates
  induction tbl with
  | nil => simp
  | cons r rs ih =>
    rw [List.pairwise_cons] at h
    rw [List.filterMap_cons]
    cases hf : availEntry t r with
    | none => exact ih h.2
    | some e =>
      rw [List.pairwise_cons]
      refine ⟨?_, ih h.2⟩
      intro b hb heq
      obtain ⟨r2, hr2, hf2⟩ := List.mem_filterMap.mp hb
      obtain ⟨e1, e2⟩ := e
      obtain ⟨b1, b2⟩ := b
      obtain ⟨hd1, _, _⟩ := availEntry_eq_some.mp hf
      obtain ⟨hd2, _, _⟩ := availEntry_eq_some.mp hf2
      simp only at heq
      have := h.1 r2 hr2 (by rw [hd1, hd2, heq])
      rw [hd1] at this
      cases this

theorem get_usd_to_eur_rate_some (tbl : List CRow) (t : ℤ) :
    get_usd_to_eur_rate tbl (some t) =
      match maxDateEntry (availableRates tbl t) with
      | none => none
      | some e =>
        match e.2 with
        | some u => some (1 / u)
        | none => none := rfl

theorem get_rate_selected {tbl : List CRow} {t : ℤ} {r0 : CRow} {d0 : ℤ}
    (hdist : RDistinct tbl) (hmem : r0 ∈ tbl) (hd : r0.date = some d0)
    (hle : d0 ≤ t)
    (hmax : ∀ r ∈ tbl, ∀ d, r.date = some d → d ≤ t → d ≤ d0) :
    get_usd_to_eur_rate tbl (some t) = r0.usd.map (fun u => 1 / u) := by
  have hmem2 : (d0, r0.usd) ∈ availableRates tbl t :=
    availableRates_mem.mpr ⟨⟨r0, hmem, hd, rfl⟩, hle⟩
  have hmax2 : ∀ x ∈ availableRates tbl t, x.1 ≤ d0 := by
    rintro ⟨xd, xu⟩ hx
    obtain ⟨⟨r, hr, hrd, _⟩, hxt⟩ := availableRates_mem.mp hx
    exact hmax r hr xd hrd hxt
  have hsel := maxDateEntry_spec (availableRates_pairwise hdist) hmem2 hmax2
  rw [get_usd_to_eur_rate_some, hsel]
  cases r0.usd <;> rfl

theorem get_rate_no_prior {tbl : List CRow} {t : ℤ}
    (h : ∀ r ∈ tbl, ∀ d, r.date = some d → ¬ d ≤ t) :
    get_usd_to_eur_rate tbl (some t) = none := by
  have hnil : availableRates tbl t = [] := by
    rw [List.eq_nil_iff_forall_not_mem]
    rintro ⟨xd, xu⟩ hx
    obtain ⟨⟨r, hr, hrd, _⟩, hxt⟩ := availableRates_mem.mp hx
    exact h r hr xd hrd hxt
  rw [get_usd_to_eur_rate_some, hnil]
  rfl

theorem mem_dedupKeepLast {κ α : Type} [DecidableEq κ] :
    ∀ {l : List (κ × α)} {x : κ × α}, x ∈ dedupKeepLast l → x ∈ l := by
  intro l
  induction l with
  | nil => intro x h; cases h
  | cons p ps ih =>
    intro x h
    rw [dedupKeepLast] at h
    by_cases ha : ps.any (fun e => e.1 = p.1)
    · rw [if_pos ha] at h
      exact List.mem_cons_of_mem _ (ih h)
    · rw [if_neg ha] at h
      rcases List.mem_cons.mp h with rfl | h2
      · exact List.mem_cons_self _ _
      · exact List.mem_cons_of_mem _ (ih h2)

theorem dedupKeepLast_filter {κ α : Type} [DecidableEq κ] (k : κ) :
    ∀ (l : List (κ × α)) (r : κ × α),
      (l.filter (fun e => e.1 = k)).getLast? = some r →
      (dedupKeepLast l).filter (fun e => e.1 = k) = [r] := by
  intro l
  induction l with
  | nil => intro r h; simp at h
  | cons p ps ih =>
    intro r h
    by_cases hk : p.1 = k
    · rw [List.filter_cons_of_pos (by simp [hk])] at h
      by_cases hps : ps.filter (fun e => e.1 = k) = []
      · rw [hps] at h
        simp only [List.getLast?_singleton, Option.some.injEq] at h
        subst h
        have hnok : ∀ e ∈ ps, e.1 ≠ k := by
          intro e he
          have := List.filter_eq_nil_iff.mp hps e he
          simpa using this
        have hany : ¬ ps.any (fun e => e.1 = p.1) = true := by
          rw [List.any_eq_true]
          rintro ⟨e, he, hek⟩
          exact hnok e he (by simpa [hk] using hek)
        rw [dedupKeepLast, if_neg hany]
        rw [List.filter_cons_of_pos (by simp [hk])]
        have hded : (dedupKeepLast ps).filter (fun e => e.1 = k) = [] := by
          rw [List.filter_eq_nil_iff]
          intro e he
          simpa using hnok e (mem_dedupKeepLast he)
        rw [hded]
      · obtain ⟨b, L, hbl⟩ := List.exists_cons_of_ne_nil hps
        have hlast : (ps.filter (fun e => e.1 = k)).getLast? = some r := by
          rw [hbl] at h ⊢
          rwa [List.getLast?_cons_cons] at h
        have hany : ps.any (fun e => e.1 = p.1) = true := by
          rw [List.any_eq_true]
          have hb : b ∈ ps.filter (fun e => e.1 = k) := by
            rw [hbl]; exact List.mem_cons_self _ _
          obtain ⟨hbmem, hbk⟩ := List.mem_filter.mp hb
          refine ⟨b, hbmem, ?_⟩
          simp only [decide_eq_true_eq] at hbk
          simp [hbk, hk]
        rw [dedupKeepLast, if_pos hany]
        exact ih r hlast
    · rw [List.filter_cons_of_neg (by simp [hk])] at h
      have hres := ih r h
      rw [dedupKeepLast]
      by_cases hany : ps.any (fun e => e.1 = p.1)
      · rw [if_pos hany]
        exact hres
      · rw [if_neg hany]
        rw [List.filter_cons_of_neg (by simp [hk])]
        exact hres

theorem gapEntry_eq_some {w : ℤ} {r : SRow} {d : ℤ} :
    gapEntry w r = some d ↔ r.date = some d ∧ r.value = none ∧ w ≤ d := by
  cases hrd : r.date with
  | none => simp [gapEntry, hrd]
  | some d2 =>
    cases hrv : r.value with
    | some v => simp [gapEntry, hrd, hrv]
    | none =>
      by_cases hw : w ≤ d2
      · simp only [gapEntry, hrd, hrv, if_pos hw, Option.some.injEq]
        constructor
        · rintro rfl
          exact ⟨rfl, trivial, hw⟩
        · rintro ⟨hdd, _, _⟩
          exact hdd
      · simp only [gapEntry, hrd, hrv, if_neg hw]
        constructor
        · intro h; cases h
        · rintro ⟨hdd, _, hle⟩
          simp only [Option.some.injEq] at hdd
          subst hdd
          exact absurd hle hw

theorem gapCandidates_mem {rows : List SRow} {lookback last : ℤ}
    (hlast : lastDate rows = some last) {d : ℤ} :
    d ∈ gapCandidates rows lookback ↔
      ∃ r ∈ rows, r.date = some d ∧ r.value = none ∧ last - lookback ≤ d := by
  unfold gapCandidates
  rw [hlast, List.mem_filterMap]
  constructor
  · rintro ⟨r, hr, hf⟩
    exact ⟨r, hr, gapEntry_eq_some.mp hf⟩
  · rintro ⟨r, hr, h1, h2, h3⟩
    exact ⟨r, hr, gapEntry_eq_some.mpr ⟨h1, h2, h3⟩⟩

theorem resolveGap_exact {provider : List (ℤ × ℚ)} {target : ℤ} {v : ℚ}
    (hp : provider.Pairwise (fun a b => a.1 ≠ b.1))
    (hmem : (target, v) ∈ provider) :
    resolveGap provider target = .exact (round2 v) := by
  unfold resolveGap lookupClose
  rw [find?_fst_eq_of_mem hp hmem]

theorem resolveGap_fallback {provider : List (ℤ × ℚ)} {target d : ℤ} {v : ℚ}
    (hp : provider.Pairwise (fun a b => a.1 ≠ b.1))
    (hnot : ∀ v2, (target, v2) ∉ provider)
    (hmem : (d, v) ∈ provider) (hle : d ≤ target)
    (hmax : ∀ e ∈ provider, e.1 ≤ target → e.1 ≤ d) :
    resolveGap provider target = .fallback d (round2 v) := by
  have hfind : provider.find? (fun e => e.1 = target) = none := by
    rw [List.find?_eq_none]
    intro x hx
    simp only [decide_eq_true_eq]
    intro hxt
    refine hnot x.2 ?_
    rw [← hxt]
    simpa using hx
  have hmemf : (d, v) ∈ provider.filter (fun e => e.1 ≤ target) :=
    List.mem_filter.mpr ⟨hmem, by simp [hle]⟩
  have hpf : (provider.filter (fun e => e.1 ≤ target)).Pairwise
      (fun a b => a.1 ≠ b.1) :=
    List.Pairwise.sublist (List.filter_sublist _) hp
  have hmaxf : ∀ x ∈ provider.filter (fun e => e.1 ≤ target), x.1 ≤ d := by
    intro x hx
    obtain ⟨hx1, hx2⟩ := List.mem_filter.mp hx
    simp only [decide_eq_true_eq] at hx2
    exact hmax x hx1 hx2
  have hsel := maxDateEntry_spec hpf hmemf hmaxf
  unfold resolveGap lookupClose
  rw [hfind, hsel]

theorem resolveGap_skipped {provider : List (ℤ × ℚ)} {target : ℤ}
    (h : ∀ e ∈ provider, ¬ e.1 ≤ target) :
    resolveGap provider target = .skipped := by
  have hfind : provider.find? (fun e => e.1 = target) = none := by
    rw [List.find?_eq_none]
    intro x hx
    simp only [decide_eq_true_eq]
    intro hxt
    exact h x hx (le_of_eq hxt)
  have hfil : provider.filter (fun e => e.1 ≤ target) = [] := by
    rw [List.filter_eq_nil_iff]
    intro e he
    simpa using h e he
  unfold resolveGap lookupClose
  rw [hfind, hfil]
  rfl

/-- C1: for every rate table and target date, get_usd_to_eur_rate
selects, among all rows whose parsed date is at or before the target,
the row with the maximum date and returns the USD-to-EUR rate derived
from that row; if no row has a date at or before the target it
returns none. -/
theorem c1_as_of_lookup (tbl : List CRow) (t : ℤ) (hdist : RDistinct tbl) :
    ((∀ r ∈ tbl, ∀ d, r.date = some d → ¬ d ≤ t) →
       get_usd_to_eur_rate tbl (some t) = none) ∧
    (∀ r0 ∈ tbl, ∀ d0, r0.date = some d0 → d0 ≤ t →
       (∀ r ∈ tbl, ∀ d, r.date = some d → d ≤ t → d ≤ d0) →
       get_usd_to_eur_rate tbl (some t) = r0.usd.map (fun u => 1 / u)) :=
  ⟨fun h => get_rate_no_prior h,
   fun _ hr0 _ hd0 hle hmax => get_rate_selected hdist hr0 hd0 hle hmax⟩

/-- C1 witness: a table with rates on days 1, 3 and 5; the lookup for
day 4 returns the day-3 rate and the lookup for day 0 returns none. -/
theorem c1_as_of_lookup_witness :
    get_usd_to_eur_rate
      [⟨some 1, some (11/10)⟩, ⟨some 3, some (6/5)⟩, ⟨some 5, some (13/10)⟩]
      (some 4) = some (5/6) ∧
    get_usd_to_eur_rate
      [⟨some 1, some (11/10)⟩, ⟨some 3, some (6/5)⟩, ⟨some 5, some (13/10)⟩]
      (some 0) = none := by
  constructor
  · have h := (c1_as_of_lookup
      [⟨some 1, some (11/10)⟩, ⟨some 3, some (6/5)⟩, ⟨some 5, some (13/10)⟩]
      4 (by unfold RDistinct; decide)).2
      ⟨some 3, some (6/5)⟩ (by simp) 3 rfl (by decide)
      (by
        intro r hr d hd hdt
        fin_cases hr <;> simp_all <;> omega)
    rw [h]
    simp
  · exact (c1_as_of_lookup
      [⟨some 1, some (11/10)⟩, ⟨some 3, some (6/5)⟩, ⟨some 5, some (13/10)⟩]
      0 (by unfold RDistinct; decide)).1
      (by
        intro r hr d hd
        fin_cases hr <;> simp_all <;> omega)

/-- C2: merging existing then incoming rows keyed by date and
dropping duplicate keys with keep-last retains, for every key that
occurs, exactly one record, equal to the last record supplied with
that key; keys occurring once are kept unchanged. -/
theorem c2_merge_last_write_wins {κ α : Type} [DecidableEq κ]
    (existing incoming : List (κ × α)) (k : κ) (r : κ × α)
    (hlast : ((existing ++ incoming).filter (fun e => e.1 = k)).getLast? = some r) :
    (dedupKeepLast (existing ++ incoming)).filter (fun e => e.1 = k) = [r] :=
  dedupKeepLast_filter k (existing ++ incoming) r hlast

/-- C2 witness: the colliding key keeps only the incoming record and
the unique key keeps its single record. -/
theorem c2_merge_last_write_wins_witness :
    (dedupKeepLast ([("01", (1:ℚ)), ("02", 2)] ++ [("02", 3)])).filter
      (fun e => e.1 = "02") = [("02", 3)] ∧
    (dedupKeepLast ([("01", (1:ℚ)), ("02", 2)] ++ [("02", 3)])).filter
      (fun e => e.1 = "01") = [("01", 1)] :=
  ⟨c2_merge_last_write_wins [("01", (1:ℚ)), ("02", 2)] [("02", 3)] "02"
      ("02", 3) rfl,
   c2_merge_last_write_wins [("01", (1:ℚ)), ("02", 2)] [("02", 3)] "01"
      ("01", 1) rfl⟩

/-- C3: for a gap date, an exact provider observation is used rounded
to 2 decimals; otherwise the value at the most recent provider date
at or before the target is used as a fallback; with no provider date
at or before the target the gap is left skipped. -/
theorem c3_gap_fill_policy (provider : List (ℤ × ℚ)) (target : ℤ)
    (hp : provider.Pairwise (fun a b => a.1 ≠ b.1)) :
    (∀ v, (target, v) ∈ provider →
       resolveGap provider target = .exact (round2 v)) ∧
    (∀ d v, (∀ v2, (target, v2) ∉ provider) → (d, v) ∈ provider →
       d ≤ target → (∀ e ∈ provider, e.1 ≤ target → e.1 ≤ d) →
       resolveGap provider target = .fallback d (round2 v)) ∧
    ((∀ e ∈ provider, ¬ e.1 ≤ target) →
       resolveGap provider target = .skipped) :=
  ⟨fun _ hv => resolveGap_exact hp hv,
   fun _ _ hnot hmem hle hmax => resolveGap_fallback hp hnot hmem hle hmax,
   fun h => resolveGap_skipped h⟩

/-- C3 witness: with provider data on days 1 and 2, day 2 resolves
exactly, day 4 falls back to day 2, and day 0 is skipped. -/
theorem c3_gap_fill_policy_witness :
    resolveGap [((1:ℤ), (10:ℚ)), (2, 20)] 2 = GapFill.exact 20 ∧
    resolveGap [((1:ℤ), (10:ℚ)), (2, 20)] 4 = GapFill.fallback 2 20 ∧
    resolveGap [((1:ℤ), (10:ℚ)), (2, 20)] 0 = GapFill.skipped := by
  refine ⟨?_, ?_, ?_⟩
  · have h := (c3_gap_fill_policy [((1:ℤ), (10:ℚ)), (2, 20)] 2 (by decide)).1
      20 (by simp)
    rw [h]
    unfold round2 roundHalfEven
    norm_num
  · have h := (c3_gap_fill_policy [((1:ℤ), (10:ℚ)), (2, 20)] 4 (by decide)).2.1
      2 20 (by intro v2; simp) (by simp) (by decide) (by decide)
    rw [h]
    unfold round2 roundHalfEven
    norm_num
  · exact (c3_gap_fill_policy [((1:ℤ), (10:ℚ)), (2, 20)] 0 (by decide)).2.2
      (by decide)

/-- C4 counterexample: with rows on days 0 and 10 only and a 10-day
window, day 5 lies in the window and carries no observation, yet it
is not a gap candidate: the scan only visits existing rows with a NaN
cell, never calendar dates without a row. -/
theorem c4_counterexample :
    lastDate [(⟨some 0, some 1⟩ : SRow), ⟨some 10, some 2⟩] = some 10 ∧
    (10:ℤ) - 10 ≤ 5 ∧ (5:ℤ) ≤ 10 ∧
    (∀ r ∈ [(⟨some 0, some 1⟩ : SRow), ⟨some 10, some 2⟩],
       ¬ r.date = some 5) ∧
    (5:ℤ) ∉ gapCandidates [(⟨some 0, some 1⟩ : SRow), ⟨some 10, some 2⟩] 10 := by
  refine ⟨by decide, by decide, by decide, by decide, by decide⟩

/-- C4 amended: the engine identifies as gap candidates exactly the
dates that occur as rows of the series, lie at or after
mostRecent - W, and have a NaN cell for the instrument; window dates
with no row at all are not candidates. -/
theorem c4_gap_candidates (rows : List SRow) (lookback last d : ℤ)
    (hlast : lastDate rows = some last) :
    d ∈ gapCandidates rows lookback ↔
      ∃ r ∈ rows, r.date = some d ∧ r.value = none ∧ last - lookback ≤ d :=
  gapCandidates_mem hlast

/-- C4 witness: a row dated day 8 with a NaN cell, in a series whose
most recent date is day 10, is a gap candidate for a 10-day window. -/
theorem c4_gap_candidates_witness :
    (8:ℤ) ∈ gapCandidates [(⟨some 8, none⟩ : SRow), ⟨some 10, some 2⟩] 10 :=
  (c4_gap_candidates [(⟨some 8, none⟩ : SRow), ⟨some 10, some 2⟩] 10 10 8
      (by decide)).mpr
    ⟨⟨some 8, none⟩, by simp, rfl, rfl, by decide⟩

/-- C5 counterexample: the currency cache holds day 2 with rate 1 and
day 4 is requested; the price policy would fall back to the day-2
value, but the currency resolution returns none, so currency gap
filling does not use the exact-or-fallback policy of prices. -/
theorem c5_counterexample :
    resolveCurrency [((2:ℤ), (1:ℚ))] 4 = none ∧
    ((2:ℤ), (1:ℚ)) ∈ [((2:ℤ), (1:ℚ))] ∧ (2:ℤ) ≤ 4 ∧
    resolveGap [((2:ℤ), (1:ℚ))] 4 = GapFill.fallback 2 1 := by
  refine ⟨by decide, by decide, by decide, ?_⟩
  have h := (c3_gap_fill_policy [((2:ℤ), (1:ℚ))] 4 (by decide)).2.1
    2 1 (by intro v2; simp) (by simp) (by decide) (by decide)
  rw [h]
  unfold round2 roundHalfEven
  norm_num

/-- C5 amended: each tracked currency is resolved from the cache by
exact date match only, rounded to 4 decimals; a currency without the
exact date in its cached data is left unresolved for that date, with
no fallback to earlier cached dates, independently per currency. -/
theorem c5_currency_exact_only (data : List (ℤ × ℚ)) (d : ℤ)
    (hp : data.Pairwise (fun a b => a.1 ≠ b.1)) :
    (∀ v, (d, v) ∈ data → resolveCurrency data d = some (round4 v)) ∧
    ((∀ v, (d, v) ∉ data) → resolveCurrency data d = none) := by
  constructor
  · intro v hv
    unfold resolveCurrency lookupClose
    rw [find?_fst_eq_of_mem hp hv]
    rfl
  · intro h
    have hfind : data.find? (fun e => e.1 = d) = none := by
      rw [List.find?_eq_none]
      intro x hx
      simp only [decide_eq_true_eq]
      intro hxd
      refine h x.2 ?_
      rw [← hxd]
      simpa using hx
    unfold resolveCurrency lookupClose
    rw [hfind]
    rfl

/-- C5 witness: with day 5 cached at rate 2, day 5 resolves to the
rounded rate and day 6 resolves to nothing. -/
theorem c5_currency_exact_only_witness :
    resolveCurrency [((5:ℤ), (2:ℚ))] 5 = some 2 ∧
    resolveCurrency [((5:ℤ), (2:ℚ))] 6 = none := by
  constructor
  · have h := (c5_currency_exact_only [((5:ℤ), (2:ℚ))] 5 (by decide)).1
      2 (by simp)
    rw [h]
    unfold round4 roundHalfEven
    norm_num
  · exact (c5_currency_exact_only [((5:ℤ), (2:ℚ))] 6 (by decide)).2
      (by intro v; simp)

/-- C6: a projected cell is populated, with round(eur * rate, 2),
exactly when the EUR base price is present, the rate looked up for the
date is present and the rate is strictly positive; otherwise the cell
is none. -/
theorem c6_projection_mask (rates : List (ℤ × Option ℚ)) (d : ℤ)
    (eur : Option ℚ) (v : ℚ) :
    projectCell eur (lookupRate rates d) = some v ↔
      ∃ e r, eur = some e ∧ lookupRate rates d = some r ∧ 0 < r ∧
        v = round2 (e * r) := by
  cases eur with
  | none => simp [projectCell]
  | some e =>
    rcases hrt : lookupRate rates d with _ | r
    · simp [projectCell]
    · by_cases h : 0 < r
      · simp only [projectCell, if_pos h, Option.some.injEq]
        constructor
        · rintro rfl
          exact ⟨e, r, rfl, rfl, h, rfl⟩
        · rintro ⟨e2, r2, he, hr, _, hv⟩
          rw [hv, he, hr]
      · simp only [projectCell, if_neg h]
        constructor
        · intro hc; cases hc
        · rintro ⟨e2, r2, he, hr, hpos, _⟩
          injection hr with hr2
          rw [← hr2] at hpos
          exact absurd hpos h

/-- C7: with a present rate and a numeric price, conversion returns
price * rate rounded to 2 decimals; 100 USD at rate 0.92 gives
exactly 92 EUR. -/
theorem c7_conversion_rounding :
    (∀ p r : ℚ, convert_usd_to_eur (some p) (some r) = some (round2 (p * r))) ∧
    convert_usd_to_eur (some 100) (some (92/100)) = some 92 := by
  constructor
  · intro p r
    rfl
  · show some (round2 (100 * (92/100))) = some 92
    unfold round2 roundHalfEven
    norm_num

/-- C8: with no rate available the conversion passes the price
through unchanged, and the per-record processing of main leaves the
entry at its original value while bumping the no-rate skip counter. -/
theorem c8_no_rate_passthrough :
    (∀ p : Option ℚ, convert_usd_to_eur p none = p) ∧
    (∀ (p : ℚ) (s : ConvStats),
       processUsdEntry (some p) none s =
         (some p, ⟨s.converted, s.skipped_no_rate + 1, s.skipped_missing_price⟩)) := by
  constructor
  · intro p
    cases p <;> rfl
  · intro p s
    rfl

/-- C9: currency gap filling appends a row for a missing date only
when at least one currency resolved for it; a date with no resolved
currency leaves the table unchanged and bumps the skipped counter,
so every row the gap filling adds has a nonempty rate list. -/
theorem c9_no_empty_currency_rows (cache : List (String × List (ℤ × ℚ)))
    (d : ℤ) (tbl : List CurRow) (stats : FillStats) :
    (buildCurrencyRow cache d = [] →
       fillOneDate cache d tbl stats =
         (tbl, ⟨stats.filled, stats.skipped + 1⟩)) ∧
    (buildCurrencyRow cache d ≠ [] →
       fillOneDate cache d tbl stats =
         (tbl ++ [⟨d, buildCurrencyRow cache d⟩],
          ⟨stats.filled + 1, stats.skipped⟩)) ∧
    ((∀ r ∈ tbl, r.rates ≠ []) →
       ∀ r ∈ (fillOneDate cache d tbl stats).1, r.rates ≠ []) := by
  refine ⟨?_, ?_, ?_⟩
  · intro h
    simp [fillOneDate, h]
  · intro h
    have hlen : 0 < (buildCurrencyRow cache d).length :=
      List.length_pos.mpr h
    simp [fillOneDate, if_pos hlen]
  · intro hinv r hr
    by_cases hlen : 0 < (buildCurrencyRow cache d).length
    · simp only [fillOneDate, if_pos hlen] at hr
      rcases List.mem_append.mp hr with h1 | h2
      · exact hinv r h1
      · simp only [List.mem_singleton] at h2
        subst h2
        simpa using List.length_pos.mp hlen
    · simp only [fillOneDate, if_neg hlen] at hr
      exact hinv r hr

/-- C9 witness: day 5 has no cached currency so the table stays empty
and the skip counter bumps; day 6 is cached so the added row carries
a nonempty rate list. -/
theorem c9_no_empty_currency_rows_witness :
    fillOneDate [("USD", [((6:ℤ), (2:ℚ))])] 5 [] ⟨0, 0⟩ = ([], ⟨0, 1⟩) ∧
    (∀ r ∈ (fillOneDate [("USD", [((6:ℤ), (2:ℚ))])] 6 [] ⟨0, 0⟩).1,
       r.rates ≠ []) :=
  ⟨(c9_no_empty_currency_rows [("USD", [((6:ℤ), (2:ℚ))])] 5 [] ⟨0, 0⟩).1
      (by decide),
   (c9_no_empty_currency_rows [("USD", [((6:ℤ), (2:ℚ))])] 6 [] ⟨0, 0⟩).2.2
      (by simp)⟩

/-- C10: the as-of USD lookup returns the reciprocal of the stored
USD-per-EUR value of the single selected most-recent row; when that
row has no USD value the lookup returns none without falling back to
any earlier row. -/
theorem c10_reciprocal_no_usd_fallback (tbl : List CRow) (t : ℤ)
    (hdist : RDistinct tbl) (r0 : CRow) (hmem : r0 ∈ tbl) (d0 : ℤ)
    (hd : r0.date = some d0) (hle : d0 ≤ t)
    (hmax : ∀ r ∈ tbl, ∀ d, r.date = some d → d ≤ t → d ≤ d0) :
    (∀ u, r0.usd = some u →
       get_usd_to_eur_rate tbl (some t) = some (1 / u)) ∧
    (r0.usd = none → get_usd_to_eur_rate tbl (some t) = none) := by
  have h := get_rate_selected hdist hmem hd hle hmax
  constructor
  · intro u hu
    rw [h, hu]
    rfl
  · intro hu
    rw [h, hu]
    rfl

/-- C10 witness: with day 3 selected and its USD cell NaN the lookup
returns none although day 1 has a USD value; with a single day-3 row
storing 2 USD per EUR the lookup returns one half. -/
theorem c10_reciprocal_no_usd_fallback_witness :
    get_usd_to_eur_rate [⟨some 1, some 2⟩, ⟨some 3, none⟩] (some 4) = none ∧
    get_usd_to_eur_rate [⟨some 3, some 2⟩] (some 4) = some (1/2) := by
  constructor
  · exact (c10_reciprocal_no_usd_fallback
      [⟨some 1, some 2⟩, ⟨some 3, none⟩] 4 (by unfold RDistinct; decide)
      ⟨some 3, none⟩ (by simp) 3 rfl (by decide)
      (by
        intro r hr d hd hdt
        fin_cases hr <;> simp_all <;> omega)).2 rfl
  · exact (c10_reciprocal_no_usd_fallback
      [⟨some 3, some 2⟩] 4 (by unfold RDistinct; decide)
      ⟨some 3, some 2⟩ (by simp) 3 rfl (by decide)
      (by
        intro r hr d hd hdt
        fin_cases hr <;> simp_all <;> omega)).1 2 rfl
